import Mathlib

/-!
Shallow embedding of the HyperLogLog sketch implementation
(`src/hyperloglog/src/lib.rs`) and verification of its specification.

Modelling conventions:
* `u64` / `usize` / `u8` machine integers become `Nat`, with explicit bounds
  (`x < 2 ^ 64`, register values `< 256`) carried as hypotheses where they
  matter; the bit operations `&&&` and `>>>` are `Nat.land` / `Nat.shiftRight`,
  the same operations the Rust code performs.
* `f64` arithmetic in the estimator becomes real arithmetic (`ℝ`): the claims
  are about the shape of the formulas, and the source's operation order is kept.
* Fallible operations (`new`, `get_alpha`, `merge`) return `Except String`,
  mirroring `Result<_, Box<Error>>`.
* The SipHash hasher and the OS random source are injected capabilities of the
  program, not part of this repository's code: `insert` is therefore
  parametrised by an arbitrary deterministic hash function
  `hashFn : keys → value → u64`, and `new` takes the two random words drawn for
  the seed as explicit arguments.
* In-place mutation (`insert`, `merge` on `&mut self`) becomes state passing:
  the operation returns the new value of `self`; the `other` argument of
  `merge` is only read, as in the source (`&HyperLogLog`).
-/

namespace HLL

/-- The two estimation regimes, mirroring `enum Estimator` in the source. -/
inductive Estimator where
  | HyperLogLog
  | LinearCounting
deriving DecidableEq

/-- The sketch state, mirroring `struct HyperLogLog` in the source.
`registers: Vec<u8>` becomes a `List Nat` of byte values. -/
structure HyperLogLog where
  b : Nat
  b_mask : Nat
  m : Nat
  alpha : ℝ
  registers : List Nat
  hasher_key0 : Nat
  hasher_key1 : Nat

/-- `fn count_leading_zeros(mut s: u64, max_width: u8) -> u8`: the loop
`let mut lz = max_width; while s != 0 { lz -= 1; s >>= 1; } lz`, written as a
recursion on `s` with `lz` as the accumulator.  `lz - 1` is truncated `Nat`
subtraction; `clzChecked` below models the decrement with an explicit underflow
check and is proved to agree on every input `insert` can produce. -/
def count_leading_zeros : Nat → Nat → Nat
  | 0, lz => lz
  | s + 1, lz => count_leading_zeros ((s + 1) / 2) (lz - 1)
decreasing_by exact Nat.div_lt_self (Nat.succ_pos s) (by omega)

/-- `fn position_of_leftmost_one_bit(s: u64, max_width: u8) -> u8`:
`count_leading_zeros(s, max_width) + 1`. -/
def position_of_leftmost_one_bit (s maxWidth : Nat) : Nat :=
  count_leading_zeros s maxWidth + 1

/-- The same loop as `count_leading_zeros`, but with the `u8` decrement
`lz -= 1` modelled as a fallible step: `none` signals that the decrement would
underflow below zero. -/
def clzChecked : Nat → Nat → Option Nat
  | 0, lz => some lz
  | _ + 1, 0 => none
  | s + 1, lz + 1 => clzChecked ((s + 1) / 2) lz
decreasing_by exact Nat.div_lt_self (Nat.succ_pos s) (by omega)

/-- The value of `get_alpha` on success: the `match` over `b` in the source,
with `(1 << b) as f64` rendered as `(2 ^ b : ℝ)`. -/
noncomputable def alphaVal (b : Nat) : ℝ :=
  match b with
  | 4 => 0.673
  | 5 => 0.697
  | 6 => 0.709
  | _ => 0.7213 / (1.0 + 1.079 / (2 ^ b : ℝ))

/-- `fn get_alpha(b: u8) -> Result<f64, Box<Error>>`. -/
noncomputable def get_alpha (b : Nat) : Except String ℝ :=
  if b < 4 ∨ 16 < b then
    Except.error ("b must be between 4 and 16. b = " ++ toString b)
  else
    Except.ok (alphaVal b)

/-- `HyperLogLog::new(b: u8)`.  The two words the OS random source yields are
passed in as `key0`, `key1` (the random source is an injected capability; its
availability is modelled by these arguments existing). -/
noncomputable def new (b : Nat) (key0 key1 : Nat) : Except String HyperLogLog :=
  if b < 4 ∨ 16 < b then
    Except.error ("b must be between 4 and 16. b = " ++ toString b)
  else
    match get_alpha b with
    | Except.error e => Except.error e
    | Except.ok alpha =>
        Except.ok
          { b := b
            b_mask := 1 <<< b - 1
            m := 1 <<< b
            alpha := alpha
            registers := List.replicate (1 <<< b) 0
            hasher_key0 := key0
            hasher_key1 := key1 }

/-- The body of `HyperLogLog::insert` after the hash has been computed:
`j = x & b_mask`, `w = x >> b`, `p1 = position_of_leftmost_one_bit(w, 64 - b)`,
then `if registers[j] < p1 { registers[j] = p1 }`. -/
def insertHash (hll : HyperLogLog) (x : Nat) : HyperLogLog :=
  let j := x &&& hll.b_mask
  let w := x >>> hll.b
  let p1 := position_of_leftmost_one_bit w (64 - hll.b)
  if hll.registers.getD j 0 < p1 then
    { hll with registers := hll.registers.set j p1 }
  else
    hll

/-- `HyperLogLog::insert<H: Hash>(&mut self, value: &H)`: hash the value with
the sketch's SipHash keys (the hasher is injected, so it is a parameter
`hashFn`), then update the register. -/
def insert (hashFn : Nat → Nat → V → Nat) (hll : HyperLogLog) (v : V) :
    HyperLogLog :=
  insertHash hll (hashFn hll.hasher_key0 hll.hasher_key1 v)

/-- `insertHash` with every partial step made explicit: the register index is
looked up fallibly (`Vec` indexing panics out of bounds) and the leading-zero
count uses the underflow-checked loop.  `none` models a panic. -/
def insertChecked (hll : HyperLogLog) (x : Nat) : Option HyperLogLog :=
  let j := x &&& hll.b_mask
  let w := x >>> hll.b
  match clzChecked w (64 - hll.b) with
  | none => none
  | some lz =>
      match hll.registers[j]? with
      | none => none
      | some r =>
          some (if r < lz + 1 then
            { hll with registers := hll.registers.set j (lz + 1) }
          else hll)

/-- Folding a sequence of already-hashed values through `insertHash`. -/
def runInserts (hll : HyperLogLog) (xs : List Nat) : HyperLogLog :=
  xs.foldl insertHash hll

/-- The rank `insert` computes for a hash value `x`:
`position_of_leftmost_one_bit(x >> b, 64 - b)`. -/
def rankOf (b x : Nat) : Nat :=
  position_of_leftmost_one_bit (x >>> b) (64 - b)

/-- The maximum rank among the hashes of a sequence that map to register `i`
(0 when none do). -/
def maxRankAt (b bmask : Nat) (xs : List Nat) (i : Nat) : Nat :=
  ((xs.filter (fun x => x &&& bmask == i)).map (rankOf b)).foldr max 0

/-- `HyperLogLog::merge(&mut self, other: &HyperLogLog)`: on success the new
value of `self` is returned; `other` is only read.  The register update is the
in-place `iter_mut().zip(...)` loop: positions past `other`'s length (never
reached when the guard holds on valid sketches) are left unchanged. -/
def merge (self other : HyperLogLog) : Except String HyperLogLog :=
  if self.b = other.b ∧ self.m = other.m ∧
      self.hasher_key0 = other.hasher_key0 ∧
      self.hasher_key1 = other.hasher_key1 then
    Except.ok
      { self with
        registers :=
          (List.zipWith (fun p1 p2 => if p1 < p2 then p2 else p1)
            self.registers other.registers) ++
            self.registers.drop other.registers.length }
  else
    Except.error "Specs does not match."

/-- `fn count_zero_registers(registers: &[u8]) -> usize`. -/
def count_zero_registers (registers : List Nat) : Nat :=
  (registers.filter (fun x => x == 0)).length

/-- `fn raw_hyperloglog_estimate(alpha: f64, m: f64, registers: &[u8]) -> f64`:
`alpha * m * m / Σ 2^(-registers[i])`. -/
noncomputable def raw_hyperloglog_estimate (alpha m : ℝ)
    (registers : List Nat) : ℝ :=
  alpha * m * m / (registers.map (fun (x : Nat) => (2 : ℝ) ^ (-(x : ℤ)))).sum

/-- `fn linear_counting_estimate(m: f64, number_of_zero_registers: f64) -> f64`:
`m * ln(m / zeros)`. -/
noncomputable def linear_counting_estimate (m numberOfZeroRegisters : ℝ) : ℝ :=
  m * Real.log (m / numberOfZeroRegisters)

/-- `fn estimate_cardinality(hll: &HyperLogLog) -> (f64, Estimator)`. -/
noncomputable def estimate_cardinality (hll : HyperLogLog) : ℝ × Estimator :=
  let m_f64 : ℝ := hll.m
  let est := raw_hyperloglog_estimate hll.alpha m_f64 hll.registers
  if est < 5.0 / 2.0 * m_f64 then
    match count_zero_registers hll.registers with
    | 0 => (est, Estimator.HyperLogLog)
    | v => (linear_counting_estimate m_f64 (v : ℝ), Estimator.LinearCounting)
  else
    (est, Estimator.HyperLogLog)

/-- `HyperLogLog::cardinality(&self) -> f64`. -/
noncomputable def cardinality (hll : HyperLogLog) : ℝ :=
  (estimate_cardinality hll).1

/-- The sketch invariants established by construction: `b ∈ [4,16]`,
`m = 2^b`, `b_mask = m - 1`, `registers` has length `m` with byte values, and
`alpha` is the bias constant for `b`. -/
def ValidSketch (h : HyperLogLog) : Prop :=
  4 ≤ h.b ∧ h.b ≤ 16 ∧ h.m = 2 ^ h.b ∧ h.b_mask = h.m - 1 ∧
    h.registers.length = h.m ∧ h.alpha = alphaVal h.b ∧
    ∀ r ∈ h.registers, r < 256

/-- Modelled from the spec: the cardinality formula exactly as the
specification words it — `raw = bias_constant * register_count^2 /
Σ 2^(-registers[i])`; below `(5/2) * register_count`, return `raw` when no
register is zero and `register_count * ln(register_count / zeros)` otherwise;
else return `raw`.  Used only to compare against the code's `cardinality`. -/
noncomputable def cardinality_claim (h : HyperLogLog) : ℝ :=
  let m : ℝ := h.m
  let raw := h.alpha * m ^ 2 / (h.registers.map (fun (x : Nat) => (2 : ℝ) ^ (-(x : ℤ)))).sum
  if raw < 5 / 2 * m then
    if count_zero_registers h.registers = 0 then raw
    else m * Real.log (m / (count_zero_registers h.registers : ℝ))
  else raw

/-- A concrete freshly-built sketch with `b = 4` (seed words 0, 0), used as
the evaluation point of witnesses. -/
noncomputable def hll4 : HyperLogLog :=
  { b := 4, b_mask := 15, m := 16, alpha := alphaVal 4,
    registers := List.replicate 16 0, hasher_key0 := 0, hasher_key1 := 0 }

/-- A concrete freshly-built sketch with `b = 5`, incompatible with `hll4`. -/
noncomputable def hll5 : HyperLogLog :=
  { b := 5, b_mask := 31, m := 32, alpha := alphaVal 5,
    registers := List.replicate 32 0, hasher_key0 := 0, hasher_key1 := 0 }

/-! ## Helper lemmas -/

theorem hll4_valid : ValidSketch hll4 :=
  ⟨by decide, by decide, by decide, by decide, by decide, rfl, by decide⟩

theorem count_leading_zeros_le (s lz : Nat) : count_leading_zeros s lz ≤ lz := by
  induction s using Nat.strong_induction_on generalizing lz with
  | _ s ih =>
    match s with
    | 0 => simp [count_leading_zeros]
    | s + 1 =>
      rw [count_leading_zeros]
      exact le_trans (ih _ (Nat.div_lt_self (Nat.succ_pos s) (by omega)) _)
        (Nat.sub_le lz 1)

theorem clzChecked_eq (s w : Nat) (hs : s < 2 ^ w) :
    clzChecked s w = some (count_leading_zeros s w) := by
  induction s using Nat.strong_induction_on generalizing w with
  | _ s ih =>
    match s, w with
    | 0, w => rw [clzChecked, count_leading_zeros]
    | s + 1, 0 => omega
    | s + 1, w + 1 =>
      rw [clzChecked, count_leading_zeros]
      have hdiv : (s + 1) / 2 < 2 ^ w := by
        rw [Nat.div_lt_iff_lt_mul (by norm_num)]
        calc s + 1 < 2 ^ (w + 1) := hs
          _ = 2 ^ w * 2 := by rw [pow_succ]
      simpa using ih _ (Nat.div_lt_self (Nat.succ_pos s) (by omega)) w hdiv

theorem insertHash_b (h : HyperLogLog) (x : Nat) : (insertHash h x).b = h.b := by
  rw [insertHash]; split <;> rfl

theorem insertHash_b_mask (h : HyperLogLog) (x : Nat) :
    (insertHash h x).b_mask = h.b_mask := by
  rw [insertHash]; split <;> rfl

theorem insertHash_m (h : HyperLogLog) (x : Nat) : (insertHash h x).m = h.m := by
  rw [insertHash]; split <;> rfl

theorem insertHash_alpha (h : HyperLogLog) (x : Nat) :
    (insertHash h x).alpha = h.alpha := by
  rw [insertHash]; split <;> rfl

theorem insertHash_key0 (h : HyperLogLog) (x : Nat) :
    (insertHash h x).hasher_key0 = h.hasher_key0 := by
  rw [insertHash]; split <;> rfl

theorem insertHash_key1 (h : HyperLogLog) (x : Nat) :
    (insertHash h x).hasher_key1 = h.hasher_key1 := by
  rw [insertHash]; split <;> rfl

theorem insertHash_length (h : HyperLogLog) (x : Nat) :
    (insertHash h x).registers.length = h.registers.length := by
  rw [insertHash]; split
  · exact List.length_set h.registers _ _
  · rfl

/-- The register at the selected index after an insert, when it is in
bounds: the max of the old value and the computed rank. -/
theorem insertHash_getD_hit (h : HyperLogLog) (x : Nat)
    (hj : x &&& h.b_mask < h.registers.length) :
    (insertHash h x).registers.getD (x &&& h.b_mask) 0 =
      max (h.registers.getD (x &&& h.b_mask) 0) (rankOf h.b x) := by
  rw [insertHash, rankOf]
  split
  · rename_i hlt
    rw [List.getD_eq_getElem?_getD, List.getElem?_set_eq_of_lt _ hj]
    simp only [Option.getD_some]
    omega
  · rename_i hge
    omega

/-- Registers at other indices are untouched by an insert. -/
theorem insertHash_getD_miss (h : HyperLogLog) (x : Nat) (i : Nat)
    (hne : x &&& h.b_mask ≠ i) :
    (insertHash h x).registers.getD i 0 = h.registers.getD i 0 := by
  rw [insertHash]
  split
  · rw [List.getD_eq_getElem?_getD, List.getD_eq_getElem?_getD,
      List.getElem?_set_ne hne]
  · rfl

/-- Every register is monotone under a single insert. -/
theorem insertHash_getD_mono (h : HyperLogLog) (x : Nat) (i : Nat) :
    h.registers.getD i 0 ≤ (insertHash h x).registers.getD i 0 := by
  by_cases hji : x &&& h.b_mask = i
  · subst hji
    by_cases hj : x &&& h.b_mask < h.registers.length
    · rw [insertHash_getD_hit h x hj]; exact le_max_left _ _
    · rw [insertHash]
      split
      · rw [List.getD_eq_getElem?_getD, List.getD_eq_getElem?_getD,
          List.set_eq_of_length_le (by omega)]
      · exact le_refl _
  · rw [insertHash_getD_miss h x i hji]

theorem ValidSketch.m_pos (hv : ValidSketch h) : 0 < h.m := by
  obtain ⟨-, -, hm, -⟩ := hv
  rw [hm]; exact Nat.pos_pow_of_pos _ (by norm_num)

/-- The register index `x & b_mask` is in bounds for a valid sketch. -/
theorem index_lt_length (hv : ValidSketch h) (x : Nat) :
    x &&& h.b_mask < h.registers.length := by
  have hj : x &&& h.b_mask ≤ h.b_mask := Nat.and_le_right
  have hpos := hv.m_pos
  obtain ⟨-, -, -, hmask, hlen, -⟩ := hv
  omega

/-- The rank is never larger than `64 - b + 1`. -/
theorem rankOf_le (b x : Nat) : rankOf b x ≤ 64 - b + 1 := by
  rw [rankOf, position_of_leftmost_one_bit]
  exact Nat.add_le_add_right (count_leading_zeros_le _ _) 1

/-- `insertHash` preserves the sketch invariants. -/
theorem ValidSketch.insertHash (hv : ValidSketch h) (x : Nat) :
    ValidSketch (HLL.insertHash h x) := by
  obtain ⟨h4, h16, hm, hmask, hlen, halpha, hreg⟩ := hv
  refine ⟨?_, ?_, ?_, ?_, ?_, ?_, ?_⟩
  · rw [insertHash_b]; exact h4
  · rw [insertHash_b]; exact h16
  · rw [insertHash_m, insertHash_b]; exact hm
  · rw [insertHash_b_mask, insertHash_m]; exact hmask
  · rw [insertHash_length, insertHash_m]; exact hlen
  · rw [insertHash_alpha, insertHash_b]; exact halpha
  · intro r hr
    rw [HLL.insertHash] at hr
    split at hr
    · rcases List.mem_or_eq_of_mem_set hr with hmem | hval
      · exact hreg r hmem
      · subst hval
        rw [position_of_leftmost_one_bit]
        have := count_leading_zeros_le (x >>> h.b) (64 - h.b)
        omega
    · exact hreg r hr

/-- `insertHash` written as a single conditional, for case analysis. -/
theorem insertHash_eq (h : HyperLogLog) (x : Nat) :
    insertHash h x =
      if h.registers.getD (x &&& h.b_mask) 0 <
          position_of_leftmost_one_bit (x >>> h.b) (64 - h.b) then
        { h with
          registers := h.registers.set (x &&& h.b_mask)
            (position_of_leftmost_one_bit (x >>> h.b) (64 - h.b)) }
      else h := rfl

/-- Inserting the same hash twice is the same as inserting it once. -/
theorem insertHash_idem (hv : ValidSketch h) (x : Nat) :
    insertHash (insertHash h x) x = insertHash h x := by
  have hj : x &&& h.b_mask < h.registers.length := index_lt_length hv x
  rw [insertHash_eq h x]
  split
  · rename_i hlt
    rw [insertHash_eq]
    rw [if_neg]
    simp only [List.getD_eq_getElem?_getD, List.getElem?_set_eq_of_lt _ hj,
      Option.getD_some]
    omega
  · rename_i hge
    rw [insertHash_eq, if_neg hge]

theorem runInserts_nil (h : HyperLogLog) : runInserts h [] = h := rfl

theorem runInserts_cons (h : HyperLogLog) (x : Nat) (xs : List Nat) :
    runInserts h (x :: xs) = runInserts (insertHash h x) xs := rfl

theorem runInserts_append (h : HyperLogLog) (xs ys : List Nat) :
    runInserts h (xs ++ ys) = runInserts (runInserts h xs) ys := by
  rw [runInserts, runInserts, runInserts, List.foldl_append]

theorem maxRankAt_nil (b bmask i : Nat) : maxRankAt b bmask [] i = 0 := rfl

theorem maxRankAt_cons (b bmask : Nat) (x : Nat) (xs : List Nat) (i : Nat) :
    maxRankAt b bmask (x :: xs) i =
      if x &&& bmask = i then max (rankOf b x) (maxRankAt b bmask xs i)
      else maxRankAt b bmask xs i := by
  rw [maxRankAt, maxRankAt, List.filter_cons]
  by_cases hx : x &&& bmask = i
  · rw [if_pos (by simpa using hx), if_pos hx, List.map_cons, List.foldr_cons]
  · rw [if_neg (by simpa using hx), if_neg hx]

/-- The register at `i` after a run of inserts: the max of its initial value
and the best rank routed to `i`. -/
theorem runInserts_getD (h : HyperLogLog) (hv : ValidSketch h)
    (xs : List Nat) (i : Nat) (hi : i < h.m) :
    (runInserts h xs).registers.getD i 0 =
      max (h.registers.getD i 0) (maxRankAt h.b h.b_mask xs i) := by
  induction xs generalizing h with
  | nil => rw [runInserts_nil, maxRankAt_nil]; omega
  | cons x xs ih =>
    have hi' : i < (insertHash h x).m := by rw [insertHash_m]; exact hi
    rw [runInserts_cons, ih (insertHash h x) (hv.insertHash x) hi',
      insertHash_b, insertHash_b_mask, maxRankAt_cons]
    by_cases hx : x &&& h.b_mask = i
    · rw [if_pos hx]
      have hib : i < h.registers.length := by
        obtain ⟨-, -, -, -, hlen, -⟩ := hv
        omega
      rw [← hx, insertHash_getD_hit h x (by rw [hx]; exact hib), hx]
      omega
    · rw [if_neg hx, insertHash_getD_miss h x i hx]

/-- The bias constant lies strictly between 0 and 5/2 for every valid `b`. -/
theorem alphaVal_bounds (b : Nat) (h4 : 4 ≤ b) (h16 : b ≤ 16) :
    0 < alphaVal b ∧ alphaVal b < 5 / 2 := by
  interval_cases b <;> norm_num [alphaVal]

/-- The harmonic sum over an all-zero register array is the array length. -/
theorem sum_two_pow_neg_all_zero (l : List Nat) (hz : ∀ r ∈ l, r = 0) :
    (l.map (fun (x : Nat) => (2 : ℝ) ^ (-(x : ℤ)))).sum = l.length := by
  induction l with
  | nil => simp
  | cons a t ih =>
    have ha : a = 0 := hz a (List.mem_cons_self a t)
    rw [List.map_cons, List.sum_cons,
      ih (fun r hr => hz r (List.mem_cons_of_mem a hr)), ha, List.length_cons]
    push_cast
    ring

theorem count_zero_eq_length (l : List Nat) (hz : ∀ r ∈ l, r = 0) :
    count_zero_registers l = l.length := by
  rw [count_zero_registers, List.filter_eq_self.mpr]
  intro a ha
  simp [hz a ha]

/-! ## Claims -/

/-- C2 counterexample: the claim says that for a hash whose remainder is 0
the rank written is `width = 64 - precision`.  On the concrete valid sketch
`hll4` (`b = 4`) and the hash value `5` (whose remainder `5 >> 4` is 0), the
register is written with rank 61, and `61 ≠ 64 - 4 = 60`. -/
theorem insert_zero_remainder_width_cex :
    (5 : Nat) >>> hll4.b = 0 ∧
    (insertHash hll4 5).registers.getD ((5 : Nat) &&& hll4.b_mask) 0 = 61 ∧
    (61 : Nat) ≠ 64 - hll4.b := by
  refine ⟨by decide, ?_, by decide⟩
  rw [insertHash_getD_hit hll4 5 (index_lt_length hll4_valid 5), rankOf]
  have h0 : (5 : Nat) >>> hll4.b = 0 := by decide
  rw [h0, position_of_leftmost_one_bit, count_leading_zeros]
  decide

/-- C2 (amended): in `insert`, a hashed value whose remainder
(`x >> precision`) is exactly 0 is recorded with rank `width + 1 = 65 -
precision` (the loop leaves `lz = max_width` and
`position_of_leftmost_one_bit` adds 1), so the selected register becomes the
max of its old value and `64 - precision + 1`. -/
theorem insert_zero_remainder_rank (h : HyperLogLog) (hv : ValidSketch h)
    (x : Nat) (hx0 : x >>> h.b = 0) :
    (insertHash h x).registers.getD (x &&& h.b_mask) 0 =
      max (h.registers.getD (x &&& h.b_mask) 0) (64 - h.b + 1) := by
  rw [insertHash_getD_hit h x (index_lt_length hv x), rankOf, hx0,
    position_of_leftmost_one_bit, count_leading_zeros]

/-- C2 witness: the amended statement evaluated on `hll4` and hash value 5. -/
theorem insert_zero_remainder_rank_witness :
    ValidSketch hll4 ∧ (5 : Nat) >>> hll4.b = 0 ∧
    (insertHash hll4 5).registers.getD ((5 : Nat) &&& hll4.b_mask) 0 =
      max (hll4.registers.getD ((5 : Nat) &&& hll4.b_mask) 0) (64 - hll4.b + 1) :=
  ⟨hll4_valid, by decide, insert_zero_remainder_rank hll4 hll4_valid 5 (by decide)⟩

/-- C4: merging sketches that differ in precision or in either hash-seed word
fails with the incompatibility error; in this functional embedding `merge`
either returns the new value of `self` or an error, so on the error path
neither sketch's registers (nor any other field) are touched. -/
theorem merge_incompatible_rejected (A B : HyperLogLog)
    (hne : A.b ≠ B.b ∨ A.hasher_key0 ≠ B.hasher_key0 ∨
      A.hasher_key1 ≠ B.hasher_key1) :
    merge A B = Except.error "Specs does not match." := by
  rw [merge, if_neg]
  tauto

/-- C4 witness: merging the `b = 4` sketch into the `b = 5` sketch errors. -/
theorem merge_incompatible_rejected_witness :
    (hll4.b ≠ hll5.b ∨ hll4.hasher_key0 ≠ hll5.hasher_key0 ∨
      hll4.hasher_key1 ≠ hll5.hasher_key1) ∧
    merge hll4 hll5 = Except.error "Specs does not match." :=
  ⟨Or.inl (by decide), merge_incompatible_rejected hll4 hll5 (Or.inl (by decide))⟩

/-- C5: `new b` fails for `b < 4` and `b > 16`; for `4 ≤ b ≤ 16` (the two
random seed words being available as arguments) it succeeds with
`m = 2 ^ b` and `2 ^ b` registers, all zero. -/
theorem new_range_validation (b key0 key1 : Nat) :
    ((b < 4 ∨ 16 < b) → new b key0 key1 =
      Except.error ("b must be between 4 and 16. b = " ++ toString b)) ∧
    (4 ≤ b → b ≤ 16 → ∃ h, new b key0 key1 = Except.ok h ∧
      h.m = 2 ^ b ∧ h.registers.length = 2 ^ b ∧ ∀ r ∈ h.registers, r = 0) := by
  constructor
  · intro hb
    rw [new, if_pos hb]
  · intro h4 h16
    have hcond : ¬(b < 4 ∨ 16 < b) := by omega
    rw [new, if_neg hcond, get_alpha, if_neg hcond]
    refine ⟨_, rfl, ?_, ?_, ?_⟩
    · show 1 <<< b = 2 ^ b
      rw [Nat.shiftLeft_eq, one_mul]
    · show (List.replicate (1 <<< b) 0).length = 2 ^ b
      rw [List.length_replicate, Nat.shiftLeft_eq, one_mul]
    · intro r hr
      exact List.eq_of_mem_replicate hr

/-- C5 witness: `new 3` fails; `new 8` yields 256 zeroed registers. -/
theorem new_range_validation_witness :
    new 3 0 0 = Except.error ("b must be between 4 and 16. b = " ++ toString 3) ∧
    ∃ h, new 8 0 0 = Except.ok h ∧ h.m = 2 ^ 8 ∧
      h.registers.length = 2 ^ 8 ∧ ∀ r ∈ h.registers, r = 0 :=
  ⟨(new_range_validation 3 0 0).1 (by norm_num),
    (new_range_validation 8 0 0).2 (by norm_num) (by norm_num)⟩

/-- C9: the bias constant is exactly 0.673 / 0.697 / 0.709 for b = 4 / 5 / 6,
and `0.7213 / (1 + 1.079 / 2^b)` for every b in [7, 16]. -/
theorem get_alpha_constants :
    get_alpha 4 = Except.ok 0.673 ∧ get_alpha 5 = Except.ok 0.697 ∧
    get_alpha 6 = Except.ok 0.709 ∧
    ∀ b, 7 ≤ b → b ≤ 16 →
      get_alpha b = Except.ok (0.7213 / (1.0 + 1.079 / (2 ^ b : ℝ))) := by
  refine ⟨?_, ?_, ?_, ?_⟩
  · rw [get_alpha, if_neg (by norm_num)]; rfl
  · rw [get_alpha, if_neg (by norm_num)]; rfl
  · rw [get_alpha, if_neg (by norm_num)]; rfl
  · intro b h7 h16
    have hcond : ¬(b < 4 ∨ 16 < b) := by omega
    rw [get_alpha, if_neg hcond]
    congr 1
    interval_cases b <;> rfl

/-- C9 witness: the asymptotic formula at precision 10. -/
theorem get_alpha_constants_witness :
    get_alpha 10 = Except.ok (0.7213 / (1.0 + 1.079 / (2 ^ 10 : ℝ))) :=
  get_alpha_constants.2.2.2 10 (by norm_num) (by norm_num)

/-- C10: for a valid sketch and any 64-bit hash value, the insert path is
total: the register index is in bounds, the leading-zero loop never
underflows (the checked loop agrees with the code's loop), the checked
insert agrees with `insertHash` (no panic), and the rank is at most
`64 - b + 1 ≤ 61` (so it fits in a `u8` register).  `cardinality` is a total
function of the sketch by construction. -/
theorem insert_total (h : HyperLogLog) (hv : ValidSketch h)
    (x : Nat) (hx : x < 2 ^ 64) :
    x &&& h.b_mask < h.registers.length ∧
    clzChecked (x >>> h.b) (64 - h.b) =
      some (count_leading_zeros (x >>> h.b) (64 - h.b)) ∧
    insertChecked h x = some (insertHash h x) ∧
    rankOf h.b x ≤ 64 - h.b + 1 ∧ 64 - h.b + 1 ≤ 61 := by
  have hj := index_lt_length hv x
  have hb4 : 4 ≤ h.b := hv.1
  have hw : x >>> h.b < 2 ^ (64 - h.b) := by
    rw [Nat.shiftRight_eq_div_pow,
      Nat.div_lt_iff_lt_mul (Nat.pos_pow_of_pos _ (by norm_num)), ← pow_add]
    have h64 : 64 - h.b + h.b = 64 := by
      have := hv.2.1
      omega
    rw [h64]
    exact hx
  have hclz := clzChecked_eq _ _ hw
  refine ⟨hj, hclz, ?_, rankOf_le h.b x, by omega⟩
  simp only [insertChecked, hclz, List.getElem?_eq_getElem hj]
  rw [insertHash_eq, position_of_leftmost_one_bit,
    ← List.getD_eq_getElem h.registers 0 hj]

/-- C10 witness: evaluated on `hll4` and hash value 5. -/
theorem insert_total_witness :
    ValidSketch hll4 ∧ (5 : Nat) < 2 ^ 64 ∧
    ((5 : Nat) &&& hll4.b_mask < hll4.registers.length ∧
      clzChecked ((5 : Nat) >>> hll4.b) (64 - hll4.b) =
        some (count_leading_zeros ((5 : Nat) >>> hll4.b) (64 - hll4.b)) ∧
      insertChecked hll4 5 = some (insertHash hll4 5) ∧
      rankOf hll4.b 5 ≤ 64 - hll4.b + 1 ∧ 64 - hll4.b + 1 ≤ 61) :=
  ⟨hll4_valid, by norm_num, insert_total hll4 hll4_valid 5 (by norm_num)⟩

/-- C3: merging two valid sketches with equal precision and equal seed words
succeeds, and the resulting value of `self` has registers that are the
pointwise max of the two inputs, all other fields unchanged.  `other` (`B`)
is passed by read-only reference in the source; in this functional embedding
`merge` returns only the new value of `self`, so `B` is unchanged by
construction. -/
theorem merge_compatible (A B : HyperLogLog) (hA : ValidSketch A)
    (hB : ValidSketch B) (hb : A.b = B.b)
    (h0 : A.hasher_key0 = B.hasher_key0) (h1 : A.hasher_key1 = B.hasher_key1) :
    ∃ C, merge A B = Except.ok C ∧
      (∀ i < A.m, C.registers.getD i 0 =
        max (A.registers.getD i 0) (B.registers.getD i 0)) ∧
      C.b = A.b ∧ C.b_mask = A.b_mask ∧ C.m = A.m ∧ C.alpha = A.alpha ∧
      C.hasher_key0 = A.hasher_key0 ∧ C.hasher_key1 = A.hasher_key1 := by
  have hmA : A.m = 2 ^ A.b := hA.2.2.1
  have hmB : B.m = 2 ^ B.b := hB.2.2.1
  have hm : A.m = B.m := by rw [hmA, hmB, hb]
  have hlenA : A.registers.length = A.m := hA.2.2.2.2.1
  have hlenB : B.registers.length = B.m := hB.2.2.2.2.1
  rw [merge, if_pos ⟨hb, hm, h0, h1⟩]
  refine ⟨_, rfl, ?_, rfl, rfl, rfl, rfl, rfl, rfl⟩
  intro i hi
  have hiA : i < A.registers.length := by omega
  have hiB : i < B.registers.length := by omega
  have hzlen : i < (List.zipWith (fun p1 p2 => if p1 < p2 then p2 else p1)
      A.registers B.registers).length := by
    rw [List.length_zipWith]
    omega
  rw [List.getD_eq_getElem?_getD, List.drop_eq_nil_of_le (by omega),
    List.append_nil, List.getElem?_eq_getElem hzlen, Option.getD_some,
    List.getElem_zipWith, List.getD_eq_getElem A.registers 0 hiA,
    List.getD_eq_getElem B.registers 0 hiB]
  split <;> omega

/-- C3 witness: merging `hll4` with itself. -/
theorem merge_compatible_witness :
    ValidSketch hll4 ∧
    ∃ C, merge hll4 hll4 = Except.ok C ∧
      (∀ i < hll4.m, C.registers.getD i 0 =
        max (hll4.registers.getD i 0) (hll4.registers.getD i 0)) ∧
      C.b = hll4.b ∧ C.b_mask = hll4.b_mask ∧ C.m = hll4.m ∧
      C.alpha = hll4.alpha ∧ C.hasher_key0 = hll4.hasher_key0 ∧
      C.hasher_key1 = hll4.hasher_key1 :=
  ⟨hll4_valid, merge_compatible hll4 hll4 hll4_valid hll4_valid rfl rfl rfl⟩

theorem insert_insert_self (hashFn : Nat → Nat → V → Nat) (h : HyperLogLog)
    (hv : ValidSketch h) (v : V) :
    insert hashFn (insert hashFn h v) v = insert hashFn h v := by
  simp only [insert, insertHash_key0, insertHash_key1]
  exact insertHash_idem hv _

/-- C7: inserting the same value `n ≥ 1` times leaves the sketch in exactly
the state of inserting it once (the hash function is deterministic, so every
repetition computes the same index and rank, and the register max absorbs
it). -/
theorem insert_idempotent_duplicates (hashFn : Nat → Nat → V → Nat)
    (h : HyperLogLog) (hv : ValidSketch h) (v : V) (n : Nat) (hn : 1 ≤ n) :
    (fun s => insert hashFn s v)^[n] h = insert hashFn h v := by
  induction n, hn using Nat.le_induction with
  | base => rw [Function.iterate_one]
  | succ n hn ih =>
    rw [Function.iterate_succ_apply', ih]
    exact insert_insert_self hashFn h hv v

/-- C7 witness: inserting the value 5 three times into `hll4` under the
identity-ish hash equals inserting it once. -/
theorem insert_idempotent_duplicates_witness :
    ValidSketch hll4 ∧ 1 ≤ 3 ∧
    (fun s => insert (fun _ _ (w : Nat) => w) s 5)^[3] hll4 =
      insert (fun _ _ (w : Nat) => w) hll4 5 :=
  ⟨hll4_valid, by norm_num,
    insert_idempotent_duplicates (fun _ _ (w : Nat) => w) hll4 hll4_valid 5 3
      (by norm_num)⟩

/-- C6: starting from a freshly constructed sketch (all registers zero),
every register is non-decreasing across a sequence of inserts (each prefix
step can only raise it), and after the whole sequence register `i` holds the
maximum rank among the inserted hashes routed to index `i` (0 if none). -/
theorem registers_monotone_max (h : HyperLogLog) (hv : ValidSketch h)
    (hz : ∀ r ∈ h.registers, r = 0) (xs : List Nat) (i : Nat) (hi : i < h.m)
    (n : Nat) :
    (runInserts h (xs.take n)).registers.getD i 0 ≤
      (runInserts h (xs.take (n + 1))).registers.getD i 0 ∧
    (runInserts h xs).registers.getD i 0 = maxRankAt h.b h.b_mask xs i := by
  constructor
  · rw [List.take_succ, runInserts_append]
    cases hx : xs[n]? with
    | none =>
      rw [show (Option.none : Option Nat).toList = [] from rfl, runInserts_nil]
    | some x =>
      rw [show (some x).toList = [x] from rfl]
      rw [show runInserts (runInserts h (xs.take n)) [x] =
        insertHash (runInserts h (xs.take n)) x from rfl]
      exact insertHash_getD_mono _ x i
  · rw [runInserts_getD h hv xs i hi]
    have hlen : h.registers.length = h.m := hv.2.2.2.2.1
    have hzi : h.registers.getD i 0 = 0 := by
      rw [List.getD_eq_getElem h.registers 0 (by omega)]
      exact hz _ (List.getElem_mem _)
    rw [hzi]
    omega

/-- C6 witness: inserting the single hash 5 into `hll4`, register 5. -/
theorem registers_monotone_max_witness :
    ValidSketch hll4 ∧ (∀ r ∈ hll4.registers, r = 0) ∧ (5 : Nat) < hll4.m ∧
    ((runInserts hll4 (([5] : List Nat).take 0)).registers.getD 5 0 ≤
      (runInserts hll4 (([5] : List Nat).take (0 + 1))).registers.getD 5 0 ∧
    (runInserts hll4 [5]).registers.getD 5 0 =
      maxRankAt hll4.b hll4.b_mask [5] 5) :=
  ⟨hll4_valid, by decide, by decide,
    registers_monotone_max hll4 hll4_valid (by decide) [5] 5 (by decide) 0⟩

/-- C8: a sketch whose registers are all zero (freshly constructed) reports
cardinality exactly 0: every register is zero so the small-range branch is
taken with `zeros = register_count`, and linear counting gives
`m * ln(m / m) = 0`. -/
theorem cardinality_empty (h : HyperLogLog) (hv : ValidSketch h)
    (hz : ∀ r ∈ h.registers, r = 0) :
    count_zero_registers h.registers = h.m ∧
    (estimate_cardinality h).2 = Estimator.LinearCounting ∧
    cardinality h = 0 := by
  have hlen : h.registers.length = h.m := hv.2.2.2.2.1
  have halpha : h.alpha = alphaVal h.b := hv.2.2.2.2.2.1
  have hmpos : 0 < h.m := hv.m_pos
  have hmR : (0 : ℝ) < (h.m : ℝ) := by exact_mod_cast hmpos
  have hcount : count_zero_registers h.registers = h.m := by
    rw [count_zero_eq_length h.registers hz, hlen]
  have hsum : (h.registers.map (fun (x : Nat) => (2 : ℝ) ^ (-(x : ℤ)))).sum =
      (h.m : ℝ) := by
    rw [sum_two_pow_neg_all_zero h.registers hz, hlen]
  have hest : raw_hyperloglog_estimate h.alpha (h.m : ℝ) h.registers =
      h.alpha * (h.m : ℝ) := by
    rw [raw_hyperloglog_estimate, hsum, mul_div_assoc,
      div_self (ne_of_gt hmR), mul_one]
  have hab := alphaVal_bounds h.b hv.1 hv.2.1
  have hlt : raw_hyperloglog_estimate h.alpha (h.m : ℝ) h.registers <
      5.0 / 2.0 * (h.m : ℝ) := by
    rw [hest, halpha, show (5.0 : ℝ) / 2.0 = 5 / 2 by norm_num]
    exact mul_lt_mul_of_pos_right hab.2 hmR
  obtain ⟨k, hk⟩ : ∃ k, count_zero_registers h.registers = k + 1 :=
    ⟨h.m - 1, by omega⟩
  have hkm : (k + 1 : Nat) = h.m := by omega
  have hcard : estimate_cardinality h =
      (linear_counting_estimate (h.m : ℝ) ((k + 1 : Nat) : ℝ),
        Estimator.LinearCounting) := by
    simp only [estimate_cardinality]
    rw [if_pos hlt, hk]
    rfl
  refine ⟨hcount, by rw [hcard], ?_⟩
  rw [cardinality, hcard]
  simp only
  rw [linear_counting_estimate, hkm, div_self (ne_of_gt hmR), Real.log_one,
    mul_zero]

/-- C8 witness: the fresh sketch `hll4` reports cardinality 0 via the
linear-counting branch. -/
theorem cardinality_empty_witness :
    ValidSketch hll4 ∧ (∀ r ∈ hll4.registers, r = 0) ∧
    (count_zero_registers hll4.registers = hll4.m ∧
      (estimate_cardinality hll4).2 = Estimator.LinearCounting ∧
      cardinality hll4 = 0) :=
  ⟨hll4_valid, by decide, cardinality_empty hll4 hll4_valid (by decide)⟩

/-- C1: for every sketch (in particular every valid one), `cardinality`
computes exactly the specification's formula: the raw harmonic-mean estimate
`alpha * m^2 / Σ 2^(-registers[i])`; below `(5/2) * m` the result is the raw
estimate when no register is zero and `m * ln(m / zeros)` otherwise; at or
above the threshold the raw estimate is returned unmodified. -/
theorem cardinality_matches_formula (h : HyperLogLog) :
    cardinality h = cardinality_claim h := by
  have hraw : h.alpha * (h.m : ℝ) ^ 2 /
      (h.registers.map (fun (x : Nat) => (2 : ℝ) ^ (-(x : ℤ)))).sum =
      raw_hyperloglog_estimate h.alpha (h.m : ℝ) h.registers := by
    rw [raw_hyperloglog_estimate, pow_two, ← mul_assoc]
  rw [cardinality]
  simp only [estimate_cardinality, cardinality_claim, linear_counting_estimate]
  rw [hraw, show (5 : ℝ) / 2 = 5.0 / 2.0 by norm_num]
  split_ifs with hcond hzero
  · rw [hzero]
  · obtain ⟨k, hk⟩ := Nat.exists_eq_succ_of_ne_zero hzero
    rw [hk]
    rfl
  · rfl

end HLL
